import Mathlib

/-!
Verification development for the `edit` dependency-graph core:
a shallow embedding of `workspace/path.py`, `workspace/workspace.py`,
`graph/edge.py` and `graph/py_file.py`, together with theorems checking
the natural-language specification against the embedded code.

Strings are modelled by Lean `String` (a wrapper around `List Char`);
all string manipulation is done through small executable helpers over the
underlying character lists, mirroring the Python string/`os.path`
operations the source uses.  Filesystem effects are made explicit:
directory trees, the walked file set, the config file and listener
invocations are all ordinary data.
-/

namespace Edit

/-- Characters of a string (the `List Char` the `String` wraps). -/
def chars (s : String) : List Char := s.data

/-- Build a string back from characters. -/
def ofChars (l : List Char) : String := ⟨l⟩

/-- First `n` characters of a string (Python `s[:n]` for `0 ≤ n`). -/
def strTake (s : String) (n : Nat) : String := ⟨s.data.take n⟩

/-- All but the first `n` characters of a string (Python `s[n:]`). -/
def strDrop (s : String) (n : Nat) : String := ⟨s.data.drop n⟩

/-- Split a character list on a separator character, keeping empty pieces,
exactly like Python `str.split(sep)` for a one-character separator. -/
def splitChars (sep : Char) : List Char → List (List Char)
  | [] => [[]]
  | c :: rest =>
    match splitChars sep rest with
    | [] => if c = sep then [[], []] else [[c]]
    | h :: t => if c = sep then [] :: h :: t else (c :: h) :: t

/-- Join character lists with a separator character. -/
def joinChars (sep : Char) : List (List Char) → List Char
  | [] => []
  | [x] => x
  | x :: y :: t => x ++ sep :: joinChars sep (y :: t)

/-- Path components of a '/'-separated path, dropping empty components;
this is the `[x for x in p.split(sep) if x]` step of `posixpath.relpath`. -/
def splitComponents (s : String) : List String :=
  ((splitChars '/' s.data).filter (fun l => l ≠ [])).map (fun l => (⟨l⟩ : String))

/-- Join path components with '/'. -/
def joinSlash (l : List String) : String :=
  ⟨joinChars '/' (l.map (fun s => s.data))⟩

/-- Length of the common component-wise prefix of two component lists
(`len(commonprefix([start_list, path_list]))` in `posixpath.relpath`). -/
def commonCount : List String → List String → Nat
  | a :: as, b :: bs => if a = b then commonCount as bs + 1 else 0
  | _, _ => 0

/-- Lexical model of `os.path.relpath(path, start)` for already-normalized
absolute inputs: drop the common component prefix, go up with ".." for each
remaining `start` component, then down into the remaining `path` components. -/
def relpath (path start : String) : String :=
  let pl := splitComponents path
  let sl := splitComponents start
  let i := commonCount sl pl
  let relList := List.replicate (sl.length - i) ".." ++ pl.drop i
  if relList = [] then "." else joinSlash relList

/-- Lexical model of `os.path.basename`: everything after the last '/'. -/
def basenameStr (s : String) : String :=
  ⟨s.data.foldl (fun acc c => if c = '/' then [] else acc ++ [c]) []⟩

/-- Does the string start with '/' (Python `b.startswith('/')`)? -/
def startsSlash (s : String) : Bool :=
  match s.data with
  | c :: _ => c = '/'
  | [] => false

/-- Does the string end with '/'? -/
def endsSlash (s : String) : Bool :=
  match s.data.getLast? with
  | some c => c = '/'
  | none => false

/-- Lexical model of `posixpath.join` for a single right operand. -/
def joinPath (a b : String) : String :=
  if startsSlash b then b
  else if a = "" then b
  else if endsSlash a then a ++ b
  else a ++ "/" ++ b

/-- Does the name start with the hidden-file marker '.'
(Python `name.startswith(".")`)? -/
def startsDot (s : String) : Bool :=
  match s.data with
  | c :: _ => c = '.'
  | [] => false

/-- Left-to-right scan counting non-overlapping occurrences of `pat`: after
a match the next `pat.length - 1` characters are skipped (the matched head
is consumed by the recursion step itself). -/
def countOccAux (pat : List Char) : List Char → Nat → Nat
  | [], _ => 0
  | c :: rest, skip =>
    match skip with
    | k + 1 => countOccAux pat rest k
    | 0 =>
      if pat ≠ [] ∧ List.isPrefixOf pat (c :: rest) then
        countOccAux pat rest (pat.length - 1) + 1
      else
        countOccAux pat rest 0

/-- Number of non-overlapping occurrences of `pat` in `s`, scanning from the
left; this is Python `s.count(pat)` for a non-empty pattern. -/
def countOcc (pat s : List Char) : Nat := countOccAux pat s 0

/-- Occurrence count on strings. -/
def countOccStr (pat s : String) : Nat := countOcc pat.data s.data

/-- `workspace/path.py` `Path`: a canonical absolute location plus the
remembered workspace root.  The constructor's `os.path.realpath` is a
filesystem operation; the embedding works with the post-construction state,
i.e. an arbitrary pair of strings. -/
structure Path where
  abs : String
  ws_root : String
deriving DecidableEq

/-- `Path.rel`: `os.path.relpath(self.abs, self.ws_root)`. -/
def Path.rel (p : Path) : String := relpath p.abs p.ws_root

/-- `Path.shortest`: the relative rendering if strictly shorter, else the
absolute one. -/
def Path.shortest (p : Path) : String :=
  if p.rel.length < p.abs.length then p.rel else p.abs

/-- `Path.in_workspace`: `self.abs.startswith(self.ws_root)` — a plain
textual prefix test on the two strings. -/
def Path.in_workspace (p : Path) : Bool :=
  List.isPrefixOf p.ws_root.data p.abs.data

/-- `Path.basename`: `os.path.basename(self.abs)`. -/
def Path.basename (p : Path) : String := basenameStr p.abs

/-- Suffix budget of `Path.abbreviate`: `int(max_len * 2 / 3)`, grown to the
full basename length when `require_basename` is set and the basename exceeds
the budget. -/
def scBudget (res : String) (maxLen : Nat) (rb : Bool) : Nat :=
  if rb = true ∧ maxLen * 2 / 3 < (basenameStr res).length
  then (basenameStr res).length
  else maxLen * 2 / 3

/-- Prefix budget of `Path.abbreviate`: `max_len - suffix_count - 2`,
clamped at zero (Nat subtraction clamps exactly like the Python guard). -/
def pcBudget (res : String) (maxLen : Nat) (rb : Bool) : Nat :=
  maxLen - scBudget res maxLen rb - 2

/-- `Path.abbreviate(max_len, require_basename)`: return the shortest
rendering as-is when it fits, otherwise elide the middle, keeping
`pcBudget` leading characters, a ".." marker, and `scBudget` trailing
characters. -/
def Path.abbreviate (p : Path) (maxLen : Nat) (rb : Bool) : String :=
  let res := p.shortest
  if res.length ≤ maxLen then res
  else
    strTake res (pcBudget res maxLen rb) ++ ".." ++
      strDrop res (res.length - scBudget res maxLen rb)

/-- Spec-side comparison definition (follows the spec's words, not the
code): the canonicalized absolute path lies inside the directory subtree of
the remembered workspace root — it is the root itself, or the root followed
by a '/' is a textual prefix of it. -/
def Path.underRootSpec (p : Path) : Prop :=
  p.abs = p.ws_root ∨ List.IsPrefix (p.ws_root ++ "/").data p.abs.data

instance (p : Path) : Decidable p.underRootSpec := by
  unfold Path.underRootSpec
  infer_instance

/-- The contents of a directory as the workspace walk sees them: a
sequence of named files and named subdirectories (each subdirectory
carrying its own contents).  This single inductive encodes a list of tree
entries, keeping all recursion structural. -/
inductive FSForest where
  | nil
  | fcons (name : String) (rest : FSForest)
  | dcons (name : String) (children : FSForest) (rest : FSForest)

/-- The filter from `Workspace.reload_file_list`: an entry is kept when its
name does not start with the hidden-file marker and is not in
`exclude_files`. -/
def allowedName (excl : List String) (name : String) : Bool :=
  !(startsDot name) && !(excl.contains name)

/-- The `os.walk`-based enumeration of `Workspace.reload_file_list`,
returning the component path (relative to the walk root) of every entry
kept.  At each directory the hidden/excluded names are pruned (so their
subtrees are never descended into) and the surviving directory and file
names are all recorded. -/
def walkList (excl : List String) : FSForest → List (List String)
  | FSForest.nil => []
  | FSForest.fcons n rest =>
    (if allowedName excl n then [[n]] else []) ++ walkList excl rest
  | FSForest.dcons n ch rest =>
    (if allowedName excl n
     then [n] :: (walkList excl ch).map (fun p => n :: p)
     else []) ++ walkList excl rest

/-- A registered file-list listener.  Its call either returns normally or
raises; the embedding records which, as a function of the `(removed, added)`
argument it is invoked with. -/
structure Listener where
  raises : Finset String × Finset String → Bool

/-- A config value: the JSON value shapes the setters produce. -/
inductive JVal where
  | jstr (s : String)
  | jarr (xs : List String)
deriving DecidableEq

/-- The workspace state: the workspace directory, the enumerated file set
(stored as root-relative path strings), the registered listeners and the
in-memory config mapping (an insertion-ordered key/value list, as a Python
dict loaded from JSON). -/
structure WorkspaceState where
  workspace_dir : String
  files : Finset String
  file_listeners : List Listener
  config : List (String × JVal)

/-- Lookup in the config mapping (`self.config.get(key)`). -/
def cfgGet (c : List (String × JVal)) (k : String) : Option JVal :=
  (c.find? (fun kv => kv.1 == k)).map (fun kv => kv.2)

/-- `Workspace.exclude_files`: `self.config.get('exclude_files', [])`. -/
def WorkspaceState.exclude_files (ws : WorkspaceState) : List String :=
  match cfgGet ws.config "exclude_files" with
  | some (JVal.jarr xs) => xs
  | _ => []

/-- Invoke the listeners in order with the given argument, as the loop at
the end of `reload_file_list` does: each listener is called until one
raises; the trace of performed calls and whether an exception escaped are
returned. -/
def runListeners (arg : Finset String × Finset String) :
    List Listener → List (Listener × (Finset String × Finset String)) × Bool
  | [] => ([], false)
  | l :: ls =>
    if l.raises arg then ([(l, arg)], true)
    else
      let r := runListeners arg ls
      ((l, arg) :: r.1, r.2)

/-- The file set a reload computes: every kept walk entry, as a
root-relative path string. -/
def newFilesOf (ws : WorkspaceState) (tree : FSForest) : Finset String :=
  ((walkList ws.exclude_files tree).map joinSlash).toFinset

/-- `Workspace.reload_file_list`, with the walked tree passed explicitly:
compute the new file set, the symmetric difference against the old one,
replace the stored set, then notify the listeners.  Returns the new state,
the trace of listener calls, and whether a listener raised. -/
def reload_file_list (ws : WorkspaceState) (tree : FSForest) :
    WorkspaceState × (List (Listener × (Finset String × Finset String)) × Bool) :=
  ({ ws with files := newFilesOf ws tree },
   runListeners (ws.files \ newFilesOf ws tree, newFilesOf ws tree \ ws.files)
     ws.file_listeners)

/-- The explicit filesystem the config writer touches: the set of existing
directories and the contents of regular files. -/
structure FS where
  dirs : Finset String
  fileMap : List (String × String)

/-- Update (or append) a key in an insertion-ordered mapping, as Python
dict assignment does. -/
def setAssoc {β : Type} (m : List (String × β)) (k : String) (v : β) :
    List (String × β) :=
  if m.any (fun kv => kv.1 == k) then
    m.map (fun kv => if kv.1 = k then (k, v) else kv)
  else m ++ [(k, v)]

/-- `json.dumps(v, indent=4)` for the value shapes the setters store, at
nesting depth one (strings assumed escape-free). -/
def dumpVal : JVal → String
  | .jstr s => "\"" ++ s ++ "\""
  | .jarr [] => "[]"
  | .jarr (x :: xs) =>
    "[\n" ++
      String.intercalate ",\n"
        ((x :: xs).map (fun v => "        \"" ++ v ++ "\"")) ++
      "\n    ]"

/-- `json.dumps(self.config, indent=4)`: the pretty-printed config text. -/
def dumps (c : List (String × JVal)) : String :=
  match c with
  | [] => "\x7b\x7d"
  | _ =>
    "\x7b\n" ++
      String.intercalate ",\n"
        (c.map (fun kv => "    \"" ++ kv.1 ++ "\": " ++ dumpVal kv.2)) ++
      "\n\x7d"

/-- `Workspace._write_config`: skip entirely when the workspace directory
does not exist, otherwise write the pretty-printed config to the `config`
file inside the workspace directory. -/
def write_config (ws : WorkspaceState) (fs : FS) : FS :=
  if ws.workspace_dir ∈ fs.dirs then
    { fs with
      fileMap := setAssoc fs.fileMap (joinPath ws.workspace_dir "config")
        (dumps ws.config) }
  else fs

/-- The `open_files` setter: store the root-relative renderings in the
config mapping, then attempt to persist. -/
def set_open_files (ws : WorkspaceState) (files : List Path) (fs : FS) :
    WorkspaceState × FS :=
  let ws' := { ws with
    config := setAssoc ws.config "open_files"
      (JVal.jarr (files.map Path.rel)) }
  (ws', write_config ws' fs)

/-- The `root_dir` setter: store the new root in the config mapping, then
attempt to persist. -/
def set_root_dir (ws : WorkspaceState) (root : String) (fs : FS) :
    WorkspaceState × FS :=
  let ws' := { ws with
    config := setAssoc ws.config "root_dir" (JVal.jstr root) }
  (ws', write_config ws' fs)

/-- `graph/edge.py` `EdgeType`: only `IMPORT` is produced by the core. -/
inductive EdgeType where
  | IMPORT
  | DECLARE
  | REFER
  | CALL
deriving DecidableEq

/-- `graph/edge.py` `Edge`: a typed directed edge.  The Python tuple holds
the two vertex objects; the embedding identifies a vertex by its path. -/
structure Edge where
  type : EdgeType
  source : Path
  dest : Path
deriving DecidableEq

/-- A graph vertex (`PyFile` as seen by the linking step): its path, the
resolved import paths computed at load time, and the bidirectionally stored
edges. -/
structure Vertex where
  path : Path
  imports : List Path
  outgoing : Finset Edge
  incoming : Finset Edge

/-- The graph's vertex table, keyed by path. -/
def Graph : Type := List (Path × Vertex)

/-- Modelled from the spec: `SourceGraph.find_file` (the `source_graph`
module is not under `src/`): a lookup keyed by resolved path, returning
none if absent — absence is routine. -/
def find_file (g : Graph) (p : Path) : Option Vertex :=
  (List.find? (fun pv => pv.1 = p) g).map (fun pv => pv.2)

/-- Apply an update to the vertex stored under a key. -/
def updAt (g : Graph) (k : Path) (f : Vertex → Vertex) : Graph :=
  List.map (fun pv => if pv.1 = k then (pv.1, f pv.2) else pv) g

/-- One iteration of the loop in `PyFile.visit`: look the import up in the
graph; if absent skip silently, otherwise create the `IMPORT` edge, add it
to this file's outgoing set and to the destination's incoming set. -/
def visitStep (src : Path) (acc : Vertex × Graph) (i : Path) :
    Vertex × Graph :=
  match find_file acc.2 i with
  | none => acc
  | some _ =>
    let e : Edge := ⟨EdgeType.IMPORT, src, i⟩
    ({ acc.1 with outgoing := insert e acc.1.outgoing },
     updAt acc.2 i (fun v => { v with incoming := insert e v.incoming }))

/-- `PyFile.visit(source_graph)`: run `visitStep` over the file's imports. -/
def visit (self : Vertex) (g : Graph) : Vertex × Graph :=
  self.imports.foldl (visitStep self.path) (self, g)

/-- What `imp.find_module` reports a name to be: a plain source module or a
package directory. -/
inductive ModKind where
  | source
  | pkgdir
deriving DecidableEq

/-- A module finder: given a segment name and an optional search path,
return the located file-or-directory and its kind, or none (ImportError).
This is the `finder` argument threaded through `PyFile`. -/
def Finder : Type := String → Option (List String) → Option (String × ModKind)

/-- Modelled from the spec: the package initializer file of a package
directory (`__init__.py` inside it). -/
def initFile (d : String) : String := joinPath d "__init__.py"

/-- Split a dotted module name into segments (Python `name.split('.')`). -/
def splitDots (name : String) : List String :=
  (splitChars '.' name.data).map (fun l => (⟨l⟩ : String))

/-- Modelled from the spec: the segment resolution loop of
`resolve_import` (`graph/parsers/python3.py` is not under `src/`).  Resolve
the first segment against the current search path; a package directory
contributes its initializer and resolution continues into the package's own
search path; the final segment contributes its module file (or its
initializer if it is itself a package); any failure aborts with none
(ImportError). -/
def resolveSegs (finder : Finder) :
    List String → Option (List String) → Option (List String)
  | [], _ => some []
  | [s], path =>
    match finder s path with
    | none => none
    | some (p, ModKind.source) => some [p]
    | some (d, ModKind.pkgdir) => some [initFile d]
  | s :: s2 :: rest, path =>
    match finder s path with
    | none => none
    | some (_, ModKind.source) => none
    | some (d, ModKind.pkgdir) =>
      (resolveSegs finder (s2 :: rest) (some [d])).map
        (fun l => initFile d :: l)

/-- Modelled from the spec: `resolve_import(name, finder, python_path)`,
returning the set of files loading the dotted name would execute (the
`parent` component of the Python return value is unused by `PyFile._load`
and omitted).  `path0` is the search path the first segment is resolved
against. -/
def resolve_import (finder : Finder) (name : String)
    (path0 : Option (List String)) : Option (List String) :=
  resolveSegs finder (splitDots name) path0

/-- The two import statement forms `PyFile._load` scans for. -/
inductive Stmt where
  | imp (names : List String)
  | impFrom (module : String) (names : List String)

/-- The `parsed_imports` list built by the `ast.walk` loop of
`PyFile._load`: each plain-import name with flag `false`; for a
from-import, the module itself with flag `false` and each attribute as
`module.attr` with flag `true` (`maybe_not_module`). -/
def parsedImports : List Stmt → List (String × Bool)
  | [] => []
  | Stmt.imp ns :: rest =>
    ns.map (fun n => (n, false)) ++ parsedImports rest
  | Stmt.impFrom m ns :: rest =>
    (m, false) :: (ns.map (fun y => (m ++ "." ++ y, true)) ++
      parsedImports rest)

/-- Severity of a log record. -/
inductive LogLevel where
  | debug
  | info
  | error
deriving DecidableEq

/-- The two log messages `PyFile._load` can emit. -/
inductive Msg where
  | couldNotParse
  | failedResolve (name : String)
deriving DecidableEq

/-- A log record: severity and message. -/
def LogEvent : Type := LogLevel × Msg

/-- The resolution loop of `PyFile._load`: resolve each parsed name; a
success contributes `Path(realpath(p), root_dir)` for each returned file; a
failure contributes nothing and is logged at info severity unless the name
was flagged `maybe_not_module`. -/
def loadImports (resolve : String → Option (List String))
    (realpath : String → String) (root : String) :
    List (String × Bool) → Finset Path × List LogEvent
  | [] => (∅, [])
  | (name, mnm) :: rest =>
    match resolve name with
    | some paths =>
      ((loadImports resolve realpath root rest).1 ∪
        (paths.map (fun p => Path.mk (realpath p) root)).toFinset,
       (loadImports resolve realpath root rest).2)
    | none =>
      ((loadImports resolve realpath root rest).1,
       if mnm then (loadImports resolve realpath root rest).2
       else (LogLevel.info, Msg.failedResolve name) ::
         (loadImports resolve realpath root rest).2)

/-- `PyFile._load` after the file has been read: a parse failure leaves the
imports empty and logs at info severity; otherwise the parsed import
statements are resolved.  The result is the file's imports set and the log
records emitted. -/
def pyFileLoad (resolve : String → Option (List String))
    (realpath : String → String) (root : String)
    (parseRes : Option (List Stmt)) : Finset Path × List LogEvent :=
  match parseRes with
  | none => (∅, [(LogLevel.info, Msg.couldNotParse)])
  | some stmts => loadImports resolve realpath root (parsedImports stmts)

/-- The mock module tree of `PyFileTest.setUp`: `root` and `root/pkg` are
packages, `root/pkg/mod` is a module. -/
def finder3 : Finder := fun s path =>
  if s = "root" ∧ path = none then some ("/root/", ModKind.pkgdir)
  else if s = "pkg" ∧ path = some ["/root/"] then
    some ("/root/pkg/", ModKind.pkgdir)
  else if s = "mod" ∧ path = some ["/root/pkg/"] then
    some ("/root/pkg/mod.py", ModKind.source)
  else none

/-- The hypothesis of the resolver-chain claim, as a decidable check: the
finder maps each successive segment, looked up in the path reached so far
(the previous package's directory), to the corresponding package
directory. -/
def chainOkB (finder : Finder) :
    Option (List String) → List String → List String → Bool
  | _, [], [] => true
  | path, s :: ss, d :: ds =>
    (finder s path == some (d, ModKind.pkgdir)) &&
      chainOkB finder (some [d]) ss ds
  | _, _, _ => false

/-- The search path reached after traversing the given package
directories: the last package's directory, or the initial path when none
were traversed. -/
def tailPath (path0 : Option (List String)) (dirs : List String) :
    Option (List String) :=
  match dirs.getLast? with
  | none => path0
  | some d => some [d]

/-- Fixture for the linking claim: file A. -/
def pA : Path := Path.mk "/A.py" "/w"

/-- Fixture for the linking claim: file B, tracked by the graph. -/
def pB : Path := Path.mk "/B.py" "/w"

/-- Fixture for the linking claim: file C, not tracked by the graph. -/
def pC : Path := Path.mk "/C.py" "/w"

/-- Fixture vertex A, importing B (tracked) and C (untracked). -/
def vA : Vertex := Vertex.mk pA [pB, pC] ∅ ∅

/-- Fixture vertex B with no imports. -/
def vB : Vertex := Vertex.mk pB [] ∅ ∅

/-- Fixture graph containing A and B but not C. -/
def gAB : Graph := [(pA, vA), (pB, vB)]

/-- The directory tree of `WorkspaceTest.setUp`, with the hidden entries of
`test_hidden_dirs` added. -/
def wsTestTree : FSForest :=
  FSForest.fcons "foo"
    (FSForest.dcons "dir1" (FSForest.fcons "file1" FSForest.nil)
      (FSForest.dcons "dir2" (FSForest.fcons "file1" FSForest.nil)
        (FSForest.dcons ".hidden" (FSForest.fcons "not_hidden" FSForest.nil)
          FSForest.nil)))

end Edit

-- validation of the path model against the unit tests in workspace/path.py

/-- Model check: `Path('/foo/bar', '/foo').abbreviate() == 'bar'`. -/
theorem Edit.abbrev_rel_shorter :
    (Edit.Path.mk "/foo/bar" "/foo").abbreviate 32 true = "bar" := by decide

/-- Model check: `Path('/foo/bar', '/baz').abbreviate() == '/foo/bar'`. -/
theorem Edit.abbrev_abs_shorter :
    (Edit.Path.mk "/foo/bar" "/baz").abbreviate 32 true = "/foo/bar" := by decide

/-- Model check: eliding the middle of a long path keeps 2/3 for the
suffix: matches `test_abbrev_shortest`. -/
theorem Edit.abbrev_shortest :
    (Edit.Path.mk "/this/isareally/very/annoyingly/perversely/even/path"
        "foo").abbreviate 16 true = "/thi../even/path" := by decide

/-- Model check: a long basename overrides the suffix budget: matches
`test_abbrev_require_long_basename`. -/
theorem Edit.abbrev_require_long_basename :
    (Edit.Path.mk "/foo/this_is_a_very_long_basename" "/bar").abbreviate 16
      true = "..this_is_a_very_long_basename" := by decide

/-- Model check: `import root.pkg.mod` resolves to both package
initializers plus the leaf module, matching `test_load_import`. -/
theorem Edit.resolve_three_files :
    Edit.resolve_import Edit.finder3 "root.pkg.mod" none =
      some ["/root/__init__.py", "/root/pkg/__init__.py",
        "/root/pkg/mod.py"] := by decide

/-- Model check: the hidden-dir test workspace enumerates to exactly the
expected relative paths, matching `assert_default_files`. -/
theorem Edit.walk_default_files :
    ((Edit.walkList [] Edit.wsTestTree).map Edit.joinSlash).toFinset =
      {"foo", "dir1", "dir1/file1", "dir2", "dir2/file1"} := by decide

/-- Model check: excluding `dir2` removes it and its descendants, matching
`test_exclude_files`. -/
theorem Edit.walk_exclude_dir2 :
    ((Edit.walkList ["dir2"] Edit.wsTestTree).map Edit.joinSlash).toFinset =
      {"foo", "dir1", "dir1/file1"} := by decide

/-- Model check: the pretty-printed config text matches the exact string of
`test_update_open_files_written`. -/
theorem Edit.dumps_matches_test :
    Edit.dumps [("open_files", Edit.JVal.jarr ["foo", "bar"])] =
      "\x7b\n    \"open_files\": [\n        \"foo\",\n        \"bar\"\n    ]\n\x7d" :=
  by decide

-- helper lemmas shared by the claim proofs

/-- Appending strings appends their character lists. -/
theorem Edit.strAppend_data (s t : String) : (s ++ t).data = s.data ++ t.data := rfl

/-- A string's length is its character list's length. -/
theorem Edit.strLength_data (s : String) : s.length = s.data.length := rfl

-- C3: a parse failure yields an empty import set, logged at info severity

/-- C3: for every file whose text fails to parse, the load yields an empty
imports set and a single info-severity log record, independently of the
resolver, the realpath function and the workspace root; the total function
returns normally, so no exception escapes. -/
theorem Edit.parse_failure_empty
    (resolve : String → Option (List String)) (realpath : String → String)
    (root : String) :
    Edit.pyFileLoad resolve realpath root none =
      (∅, [(Edit.LogLevel.info, Edit.Msg.couldNotParse)]) := rfl

-- C9: in_workspace is a textual prefix test, not a subtree test

/-- C9 counterexample: `/foo2/bar` does not lie in the subtree of the root
`/foo`, yet `in_workspace` reports true, because the stored test is a plain
string-prefix comparison. -/
theorem Edit.in_workspace_cex :
    (Edit.Path.mk "/foo2/bar" "/foo").in_workspace = true ∧
    ¬ (Edit.Path.mk "/foo2/bar" "/foo").underRootSpec := by decide

/-- C9 (amended): `in_workspace` is true exactly when the workspace root is
a textual prefix of the absolute path; every path lying under the root's
subtree satisfies this, but so do sibling paths that merely share the
root's textual prefix. -/
theorem Edit.in_workspace_spec (p : Edit.Path) :
    (p.in_workspace = true ↔ p.ws_root.data <+: p.abs.data) ∧
    (p.underRootSpec → p.in_workspace = true) := by
  constructor
  · exact List.isPrefixOf_iff_prefix
  · intro h
    show List.isPrefixOf p.ws_root.data p.abs.data = true
    rw [List.isPrefixOf_iff_prefix]
    rcases h with h | h
    · rw [h]
    · have h2 : p.ws_root.data <+: (p.ws_root ++ "/").data := by
        rw [Edit.strAppend_data]
        exact List.prefix_append _ _
      exact h2.trans h

/-- C9 witness: a path genuinely under the root is reported in-workspace. -/
theorem Edit.in_workspace_spec_witness :
    (Edit.Path.mk "/foo/bar" "/foo").in_workspace = true :=
  (Edit.in_workspace_spec (Edit.Path.mk "/foo/bar" "/foo")).2 (by decide)

-- C7: abbreviate budgets, length bound and suffix preservation

/-- C7 counterexample: for a rendering whose basename itself contains
"..", the elided result contains two ".." occurrences, not exactly one. -/
theorem Edit.abbreviate_marker_cex :
    16 < (Edit.Path.mk "/abcdefghijklmnopqrstuvwxyz/x..y" "/q").shortest.length ∧
    Edit.countOccStr ".."
        ((Edit.Path.mk "/abcdefghijklmnopqrstuvwxyz/x..y" "/q").abbreviate 16
          true) = 2 := by decide

/-- C7 (amended): for `maxLength ≥ 16`, `abbreviate` returns the chosen
shortest rendering unchanged when it fits; otherwise it returns the first
`pcBudget` characters, a ".." marker, and the last `scBudget` characters of
the rendering (so the marker is present and the result ends with the
original trailing characters, though further ".." occurrences can come from
the slices themselves), where the suffix budget is `⌊2·maxLength/3⌋` grown
to the basename length in the forced-basename case and the prefix budget is
clamped at zero; the result's length exceeds `maxLength` only in the
forced-basename case. -/
theorem Edit.abbreviate_spec (p : Edit.Path) (m : Nat) (rb : Bool)
    (hm : 16 ≤ m) :
    (p.shortest.length ≤ m → p.abbreviate m rb = p.shortest) ∧
    (m < p.shortest.length →
      p.abbreviate m rb =
        Edit.strTake p.shortest (Edit.pcBudget p.shortest m rb) ++ ".." ++
          Edit.strDrop p.shortest
            (p.shortest.length - Edit.scBudget p.shortest m rb) ∧
      Edit.scBudget p.shortest m rb =
        (if rb = true ∧ m * 2 / 3 < (Edit.basenameStr p.shortest).length
         then (Edit.basenameStr p.shortest).length else m * 2 / 3) ∧
      Edit.pcBudget p.shortest m rb = m - Edit.scBudget p.shortest m rb - 2 ∧
      (Edit.strDrop p.shortest
          (p.shortest.length - Edit.scBudget p.shortest m rb)).data <:+
        p.shortest.data ∧
      (m < (p.abbreviate m rb).length →
        rb = true ∧ m * 2 / 3 < (Edit.basenameStr p.shortest).length)) := by
  constructor
  · intro h
    unfold Path.abbreviate
    simp only [h, if_pos]
  · intro h
    have hnot : ¬ (p.shortest.length ≤ m) := by omega
    have habbr : p.abbreviate m rb =
        Edit.strTake p.shortest (Edit.pcBudget p.shortest m rb) ++ ".." ++
          Edit.strDrop p.shortest
            (p.shortest.length - Edit.scBudget p.shortest m rb) := by
      unfold Path.abbreviate
      simp only [hnot, if_neg, if_false, ite_false]
    refine ⟨habbr, rfl, rfl, List.drop_suffix _ _, ?_⟩
    intro hlen
    by_contra hforced
    have hsc : Edit.scBudget p.shortest m rb = m * 2 / 3 := by
      unfold scBudget
      simp only [hforced, if_neg, ite_false]
    have hdiv : m * 2 / 3 * 3 ≤ m * 2 := Nat.div_mul_le_self (m * 2) 3
    have hscm : Edit.scBudget p.shortest m rb + 2 ≤ m := by omega
    have hpc : Edit.pcBudget p.shortest m rb =
        m - Edit.scBudget p.shortest m rb - 2 := rfl
    have hlen2 : (p.abbreviate m rb).length =
        (Edit.strTake p.shortest (Edit.pcBudget p.shortest m rb)).data.length
          + 2 +
          (Edit.strDrop p.shortest
            (p.shortest.length - Edit.scBudget p.shortest m rb)).data.length := by
      rw [habbr]
      rw [Edit.strLength_data, Edit.strAppend_data, Edit.strAppend_data]
      simp [List.length_append]
      omega
    have htk : (Edit.strTake p.shortest
        (Edit.pcBudget p.shortest m rb)).data.length =
        Edit.pcBudget p.shortest m rb := by
      show (p.shortest.data.take (Edit.pcBudget p.shortest m rb)).length = _
      rw [List.length_take]
      have : Edit.pcBudget p.shortest m rb ≤ p.shortest.length := by omega
      rw [Edit.strLength_data] at this
      omega
    have hdr : (Edit.strDrop p.shortest
        (p.shortest.length - Edit.scBudget p.shortest m rb)).data.length =
        Edit.scBudget p.shortest m rb := by
      show (p.shortest.data.drop
        (p.shortest.length - Edit.scBudget p.shortest m rb)).length = _
      rw [List.length_drop]
      have := Edit.strLength_data p.shortest
      omega
    omega

/-- C7 witness: a rendering within the budget is returned unchanged. -/
theorem Edit.abbreviate_spec_witness :
    (Edit.Path.mk "/foo/bar" "/foo").abbreviate 20 true =
      (Edit.Path.mk "/foo/bar" "/foo").shortest :=
  (Edit.abbreviate_spec (Edit.Path.mk "/foo/bar" "/foo") 20 true
    (by decide)).1 (by decide)

-- C5, C10: listener notification on reload

/-- When no listener raises on the argument, every registered listener is
invoked exactly once, in order, with that argument. -/
theorem Edit.runListeners_all (arg : Finset String × Finset String) :
    ∀ ls : List Edit.Listener, (∀ l ∈ ls, l.raises arg = false) →
      Edit.runListeners arg ls = (ls.map (fun l => (l, arg)), false)
  | [], _ => rfl
  | l :: ls, h => by
    have hl : l.raises arg = false := h l (List.mem_cons_self l ls)
    have ht := Edit.runListeners_all arg ls
      (fun x hx => h x (List.mem_cons_of_mem l hx))
    simp only [runListeners, hl, Bool.false_eq_true, if_false, ht,
      List.map_cons]

/-- When the listeners split as `pre ++ raiser :: post` with the prefix
returning normally and `raiser` raising, exactly the prefix and the raiser
are invoked, and the exception escapes. -/
theorem Edit.runListeners_raise (arg : Finset String × Finset String)
    (lr : Edit.Listener) (post : List Edit.Listener)
    (hr : lr.raises arg = true) :
    ∀ pre : List Edit.Listener, (∀ l ∈ pre, l.raises arg = false) →
      Edit.runListeners arg (pre ++ lr :: post) =
        (pre.map (fun l => (l, arg)) ++ [(lr, arg)], true)
  | [], _ => by simp only [List.nil_append, runListeners, hr, if_pos,
      List.map_nil]
  | l :: pre, h => by
    have hl : l.raises arg = false := h l (List.mem_cons_self l pre)
    have ht := Edit.runListeners_raise arg lr post hr pre
      (fun x hx => h x (List.mem_cons_of_mem l hx))
    simp only [List.cons_append, runListeners, hl, Bool.false_eq_true,
      if_false, List.append_eq, ht, List.map_cons]

/-- C5: a reload replaces the stored file set with the newly walked set and
(when no listener raises) invokes every registered listener exactly once,
in order, with the pair `(removed, added)` of set differences — including
when both are empty. -/
theorem Edit.reload_notifies (ws : Edit.WorkspaceState) (tree : Edit.FSForest)
    (h : ∀ l ∈ ws.file_listeners,
      l.raises (ws.files \ Edit.newFilesOf ws tree,
        Edit.newFilesOf ws tree \ ws.files) = false) :
    (Edit.reload_file_list ws tree).1.files = Edit.newFilesOf ws tree ∧
    (Edit.reload_file_list ws tree).2.1 =
      ws.file_listeners.map
        (fun l => (l, (ws.files \ Edit.newFilesOf ws tree,
          Edit.newFilesOf ws tree \ ws.files))) ∧
    (Edit.reload_file_list ws tree).2.2 = false := by
  have hr := Edit.runListeners_all
    (ws.files \ Edit.newFilesOf ws tree, Edit.newFilesOf ws tree \ ws.files)
    ws.file_listeners h
  refine ⟨rfl, ?_, ?_⟩
  · show (Edit.runListeners _ ws.file_listeners).1 = _
    rw [hr]
  · show (Edit.runListeners _ ws.file_listeners).2 = _
    rw [hr]

/-- C5 witness: a concrete reload with one well-behaved listener replaces
the file set and raises nothing. -/
theorem Edit.reload_notifies_witness :
    (Edit.reload_file_list
        (Edit.WorkspaceState.mk "/w" {"a"} [Edit.Listener.mk (fun _ => false)] [])
        (Edit.FSForest.fcons "b" Edit.FSForest.nil)).1.files = {"b"} ∧
    (Edit.reload_file_list
        (Edit.WorkspaceState.mk "/w" {"a"} [Edit.Listener.mk (fun _ => false)] [])
        (Edit.FSForest.fcons "b" Edit.FSForest.nil)).2.2 = false := by
  have h := Edit.reload_notifies
    (Edit.WorkspaceState.mk "/w" {"a"} [Edit.Listener.mk (fun _ => false)] [])
    (Edit.FSForest.fcons "b" Edit.FSForest.nil)
    (by
      intro l hl
      rw [List.mem_singleton] at hl
      rw [hl])
  refine ⟨?_, h.2.2⟩
  rw [h.1]
  decide

/-- C10: when a listener raises during a reload, the stored file set has
already been replaced (no rollback), the listeners after the raiser are
never invoked, and the exception propagates to the caller. -/
theorem Edit.reload_listener_raises (ws : Edit.WorkspaceState)
    (tree : Edit.FSForest) (pre : List Edit.Listener) (lr : Edit.Listener)
    (post : List Edit.Listener)
    (hsplit : ws.file_listeners = pre ++ lr :: post)
    (hpre : ∀ l ∈ pre,
      l.raises (ws.files \ Edit.newFilesOf ws tree,
        Edit.newFilesOf ws tree \ ws.files) = false)
    (hr : lr.raises (ws.files \ Edit.newFilesOf ws tree,
        Edit.newFilesOf ws tree \ ws.files) = true) :
    (Edit.reload_file_list ws tree).1.files = Edit.newFilesOf ws tree ∧
    (Edit.reload_file_list ws tree).2.1 =
      pre.map (fun l => (l, (ws.files \ Edit.newFilesOf ws tree,
        Edit.newFilesOf ws tree \ ws.files))) ++
        [(lr, (ws.files \ Edit.newFilesOf ws tree,
          Edit.newFilesOf ws tree \ ws.files))] ∧
    (Edit.reload_file_list ws tree).2.2 = true := by
  have hrr := Edit.runListeners_raise
    (ws.files \ Edit.newFilesOf ws tree, Edit.newFilesOf ws tree \ ws.files)
    lr post hr pre hpre
  refine ⟨rfl, ?_, ?_⟩
  · show (Edit.runListeners _ ws.file_listeners).1 = _
    rw [hsplit, hrr]
  · show (Edit.runListeners _ ws.file_listeners).2 = _
    rw [hsplit, hrr]

/-- C10 witness: with a single always-raising listener, the file set is
still replaced and the exception escapes. -/
theorem Edit.reload_listener_raises_witness :
    (Edit.reload_file_list
        (Edit.WorkspaceState.mk "/w" ∅ [Edit.Listener.mk (fun _ => true)] [])
        Edit.FSForest.nil).1.files = (∅ : Finset String) ∧
    (Edit.reload_file_list
        (Edit.WorkspaceState.mk "/w" ∅ [Edit.Listener.mk (fun _ => true)] [])
        Edit.FSForest.nil).2.2 = true := by
  have h := Edit.reload_listener_raises
    (Edit.WorkspaceState.mk "/w" ∅ [Edit.Listener.mk (fun _ => true)] [])
    Edit.FSForest.nil [] (Edit.Listener.mk (fun _ => true)) []
    rfl (by intro l hl; exact absurd hl (List.not_mem_nil l)) rfl
  refine ⟨?_, h.2.2⟩
  rw [h.1]
  decide

-- C6: hidden and excluded names never appear, at any depth

/-- Every component of every path the walk produces passes the
hidden/excluded filter: pruned directories are never descended into. -/
theorem Edit.walkList_allowed (excl : List String) :
    ∀ t : Edit.FSForest, ∀ p ∈ Edit.walkList excl t, ∀ c ∈ p,
      Edit.allowedName excl c = true
  | FSForest.nil => by simp [walkList]
  | FSForest.fcons n rest => by
    intro p hp c hc
    simp only [walkList] at hp
    rcases List.mem_append.mp hp with h1 | h2
    · by_cases hn : allowedName excl n = true
      · rw [if_pos hn] at h1
        rw [List.mem_singleton] at h1
        subst h1
        rw [List.mem_singleton] at hc
        subst hc
        exact hn
      · rw [if_neg hn] at h1
        exact absurd h1 (List.not_mem_nil p)
    · exact Edit.walkList_allowed excl rest p h2 c hc
  | FSForest.dcons n ch rest => by
    intro p hp c hc
    simp only [walkList] at hp
    rcases List.mem_append.mp hp with h1 | h2
    · by_cases hn : allowedName excl n = true
      · rw [if_pos hn] at h1
        rcases List.mem_cons.mp h1 with h3 | h3
        · subst h3
          rw [List.mem_singleton] at hc
          subst hc
          exact hn
        · obtain ⟨q, hq, rfl⟩ := List.mem_map.mp h3
          rcases List.mem_cons.mp hc with h4 | h4
          · subst h4
            exact hn
          · exact Edit.walkList_allowed excl ch q hq c h4
      · rw [if_neg hn] at h1
        exact absurd h1 (List.not_mem_nil p)
    · exact Edit.walkList_allowed excl rest p h2 c hc

/-- C6: after a reload, every entry of the workspace's file set comes from
a walked component path in which no component starts with the hidden-file
marker or appears in `exclude_files` — so a hidden or excluded directory
and all its descendants are absent. -/
theorem Edit.reload_files_allowed (ws : Edit.WorkspaceState)
    (tree : Edit.FSForest) :
    ∀ s ∈ (Edit.reload_file_list ws tree).1.files,
      ∃ comps ∈ Edit.walkList ws.exclude_files tree,
        s = Edit.joinSlash comps ∧
        ∀ c ∈ comps, Edit.startsDot c = false ∧ c ∉ ws.exclude_files := by
  intro s hs
  have hs2 : s ∈ (Edit.walkList ws.exclude_files tree).map Edit.joinSlash := by
    have : s ∈ Edit.newFilesOf ws tree := hs
    rw [Edit.newFilesOf, List.mem_toFinset] at this
    exact this
  obtain ⟨comps, hc, rfl⟩ := List.mem_map.mp hs2
  refine ⟨comps, hc, rfl, ?_⟩
  intro c hcc
  have h := Edit.walkList_allowed ws.exclude_files tree comps hc c hcc
  rw [Edit.allowedName, Bool.and_eq_true, Bool.not_eq_true',
    Bool.not_eq_true'] at h
  refine ⟨h.1, ?_⟩
  intro hmem
  have : ws.exclude_files.contains c = true := List.elem_eq_true_of_mem hmem
  rw [this] at h
  exact absurd h.2 (by simp)

/-- C6 witness: with `dir2` excluded, `dir1` is still enumerated and every
component of its walked path is neither hidden nor excluded. -/
theorem Edit.reload_files_allowed_witness :
    "dir1" ∈ (Edit.reload_file_list
        (Edit.WorkspaceState.mk "/w" ∅ []
          [("exclude_files", Edit.JVal.jarr ["dir2"])])
        Edit.wsTestTree).1.files ∧
    ∃ comps ∈ Edit.walkList
        (Edit.WorkspaceState.mk "/w" ∅ []
          [("exclude_files", Edit.JVal.jarr ["dir2"])]).exclude_files
        Edit.wsTestTree,
      "dir1" = Edit.joinSlash comps ∧
      ∀ c ∈ comps, Edit.startsDot c = false ∧
        c ∉ (Edit.WorkspaceState.mk "/w" ∅ []
          [("exclude_files", Edit.JVal.jarr ["dir2"])]).exclude_files :=
  ⟨by decide,
   Edit.reload_files_allowed
     (Edit.WorkspaceState.mk "/w" ∅ []
       [("exclude_files", Edit.JVal.jarr ["dir2"])])
     Edit.wsTestTree "dir1" (by decide)⟩

-- C8: setters mutate the in-memory config and persist only when the
-- workspace directory exists

/-- C8: for both config setters, when the workspace directory does not
exist the in-memory config is still updated but the filesystem is left
completely untouched (no directory, no config file); when it exists, the
new config is immediately written to the `config` file as pretty-printed
JSON, creating no directory. -/
theorem Edit.setters_persist (ws : Edit.WorkspaceState) (fs : Edit.FS)
    (files : List Edit.Path) (root : String) :
    (ws.workspace_dir ∉ fs.dirs →
      (Edit.set_open_files ws files fs).2 = fs ∧
      (Edit.set_root_dir ws root fs).2 = fs ∧
      (Edit.set_open_files ws files fs).1.config =
        Edit.setAssoc ws.config "open_files"
          (Edit.JVal.jarr (files.map Edit.Path.rel)) ∧
      (Edit.set_root_dir ws root fs).1.config =
        Edit.setAssoc ws.config "root_dir" (Edit.JVal.jstr root)) ∧
    (ws.workspace_dir ∈ fs.dirs →
      (Edit.set_open_files ws files fs).2.dirs = fs.dirs ∧
      (Edit.set_open_files ws files fs).2.fileMap =
        Edit.setAssoc fs.fileMap (Edit.joinPath ws.workspace_dir "config")
          (Edit.dumps (Edit.setAssoc ws.config "open_files"
            (Edit.JVal.jarr (files.map Edit.Path.rel)))) ∧
      (Edit.set_root_dir ws root fs).2.dirs = fs.dirs ∧
      (Edit.set_root_dir ws root fs).2.fileMap =
        Edit.setAssoc fs.fileMap (Edit.joinPath ws.workspace_dir "config")
          (Edit.dumps (Edit.setAssoc ws.config "root_dir"
            (Edit.JVal.jstr root)))) := by
  constructor
  · intro h
    refine ⟨?_, ?_, rfl, rfl⟩
    · simp only [set_open_files, write_config]
      rw [if_neg h]
    · simp only [set_root_dir, write_config]
      rw [if_neg h]
  · intro h
    refine ⟨?_, ?_, ?_, ?_⟩
    · simp only [set_open_files, write_config]
      rw [if_pos h]
    · simp only [set_open_files, write_config]
      rw [if_pos h]
    · simp only [set_root_dir, write_config]
      rw [if_pos h]
    · simp only [set_root_dir, write_config]
      rw [if_pos h]

/-- C8 witness: with no workspace directory on disk, setting `open_files`
leaves the filesystem untouched while the in-memory config gains the key. -/
theorem Edit.setters_persist_witness :
    (Edit.set_open_files (Edit.WorkspaceState.mk "/w" ∅ [] [])
        [] (Edit.FS.mk ∅ [])).2 = Edit.FS.mk ∅ [] ∧
    (Edit.set_open_files (Edit.WorkspaceState.mk "/w" ∅ [] [])
        [] (Edit.FS.mk ∅ [])).1.config = [("open_files", Edit.JVal.jarr [])] := by
  have h := (Edit.setters_persist (Edit.WorkspaceState.mk "/w" ∅ [] [])
    (Edit.FS.mk ∅ []) [] "/r").1 (by decide)
  refine ⟨h.1, ?_⟩
  rw [h.2.2.1]
  decide

-- C2: failure policy of the import-resolution loop

/-- Characterization of the resolution loop: the log records are exactly
the info-severity failures of the names not flagged `maybe_not_module`, in
scan order, and the imports set contains exactly the wrapped paths of the
successfully resolved names. -/
theorem Edit.loadImports_spec (resolve : String → Option (List String))
    (realpath : String → String) (root : String) :
    ∀ pi : List (String × Bool),
      (Edit.loadImports resolve realpath root pi).2 =
        (pi.filter (fun nb => (resolve nb.1).isNone && !nb.2)).map
          (fun nb =>
            ((Edit.LogLevel.info : Edit.LogLevel),
              Edit.Msg.failedResolve nb.1)) ∧
      ∀ q : Edit.Path,
        q ∈ (Edit.loadImports resolve realpath root pi).1 ↔
          ∃ nb ∈ pi, ∃ ps, resolve nb.1 = some ps ∧
            ∃ s ∈ ps, q = Edit.Path.mk (realpath s) root
  | [] => by simp [loadImports]
  | (name, mnm) :: rest => by
    obtain ⟨ihlog, ihmem⟩ := Edit.loadImports_spec resolve realpath root rest
    rcases hres : resolve name with - | ps
    · constructor
      · cases mnm
        · simp only [loadImports, hres, Bool.false_eq_true, if_false,
            List.filter_cons, hres, Option.isNone_none, Bool.not_false,
            Bool.and_self, if_pos, List.map_cons, ihlog]
        · simp only [loadImports, hres, if_pos, List.filter_cons,
            Option.isNone_none, Bool.not_true, Bool.true_and,
            Bool.false_eq_true, if_false, ihlog]
      · intro q
        have hq : q ∈ (Edit.loadImports resolve realpath root
            ((name, mnm) :: rest)).1 ↔
            q ∈ (Edit.loadImports resolve realpath root rest).1 := by
          cases mnm <;> simp only [loadImports, hres]
        rw [hq, ihmem q]
        constructor
        · rintro ⟨nb, hnb, hrest⟩
          exact ⟨nb, List.mem_cons_of_mem _ hnb, hrest⟩
        · rintro ⟨nb, hnb, ps, hps, hrest⟩
          rcases List.mem_cons.mp hnb with h1 | h1
          · subst h1
            rw [hres] at hps
            exact absurd hps (by simp)
          · exact ⟨nb, h1, ps, hps, hrest⟩
    · constructor
      · simp only [loadImports, hres, List.filter_cons, Option.isNone_some,
          Bool.false_and, Bool.false_eq_true, if_false, ihlog]
      · intro q
        simp only [loadImports, hres, Finset.mem_union, List.mem_toFinset,
          List.mem_map, ihmem q]
        constructor
        · rintro (⟨nb, hnb, hrest⟩ | ⟨s, hs, rfl⟩)
          · exact ⟨nb, List.mem_cons_of_mem _ hnb, hrest⟩
          · exact ⟨(name, mnm), List.mem_cons_self _ _, ps, hres, s, hs, rfl⟩
        · rintro ⟨nb, hnb, ps2, hps2, s, hs, rfl⟩
          rcases List.mem_cons.mp hnb with h1 | h1
          · subst h1
            rw [hres] at hps2
            obtain rfl : ps = ps2 := by injection hps2
            exact Or.inr ⟨s, hs, rfl⟩
          · exact Or.inl ⟨nb, h1, ps2, hps2, s, hs, rfl⟩

/-- C2: when loading a parsed file, a resolution failure for a name coming
from a plain import statement or from the module part of a from-import
(flag `false` in `parsedImports`) is logged at info severity, while a
failure for a `module.attr` name derived from a from-import attribute (flag
`true`) is silently suppressed; in both cases the failed name contributes
no paths, and the imports set consists exactly of the wrapped paths of the
successfully resolved names. -/
theorem Edit.load_failure_policy (resolve : String → Option (List String))
    (realpath : String → String) (root : String) (stmts : List Edit.Stmt) :
    (Edit.pyFileLoad resolve realpath root (some stmts)).2 =
      ((Edit.parsedImports stmts).filter
        (fun nb => (resolve nb.1).isNone && !nb.2)).map
        (fun nb =>
          ((Edit.LogLevel.info : Edit.LogLevel),
            Edit.Msg.failedResolve nb.1)) ∧
    ∀ q : Edit.Path,
      q ∈ (Edit.pyFileLoad resolve realpath root (some stmts)).1 ↔
        ∃ nb ∈ Edit.parsedImports stmts, ∃ ps, resolve nb.1 = some ps ∧
          ∃ s ∈ ps, q = Edit.Path.mk (realpath s) root :=
  Edit.loadImports_spec resolve realpath root (Edit.parsedImports stmts)

/-- C2 witness: `from root.pkg import Classy` where `Classy` is not a
submodule resolves to the two package initializers with an empty log. -/
theorem Edit.load_failure_policy_witness :
    (Edit.pyFileLoad (fun n => Edit.resolve_import Edit.finder3 n none) id
        "/w" (some [Edit.Stmt.impFrom "root.pkg" ["Classy"]])).2 = [] ∧
    Edit.Path.mk "/root/__init__.py" "/w" ∈
      (Edit.pyFileLoad (fun n => Edit.resolve_import Edit.finder3 n none) id
        "/w" (some [Edit.Stmt.impFrom "root.pkg" ["Classy"]])).1 := by
  have h := Edit.load_failure_policy
    (fun n => Edit.resolve_import Edit.finder3 n none) id "/w"
    [Edit.Stmt.impFrom "root.pkg" ["Classy"]]
  constructor
  · rw [h.1]
    decide
  · exact (h.2 (Edit.Path.mk "/root/__init__.py" "/w")).mpr
      ⟨("root.pkg", false), by decide,
        ["/root/__init__.py", "/root/pkg/__init__.py"], by decide,
        "/root/__init__.py", by decide, rfl⟩

-- C1: resolving a package chain yields every initializer plus the leaf

/-- Chain lemma for the segment loop: when every listed segment resolves to
the corresponding package directory (each looked up in the previous
package's directory) and the final segment resolves to a plain module in
the last package, the resolver returns the initializers of all traversed
packages followed by the leaf module file. -/
theorem Edit.resolveSegs_chain (finder : Edit.Finder) (m f : String) :
    ∀ (ps dirs : List String) (path0 : Option (List String)),
      Edit.chainOkB finder path0 ps dirs = true →
      finder m (Edit.tailPath path0 dirs) = some (f, Edit.ModKind.source) →
      Edit.resolveSegs finder (ps ++ [m]) path0 =
        some (dirs.map Edit.initFile ++ [f])
  | [], dirs, path0 => by
    intro hchain hleaf
    cases dirs with
    | cons d ds => simp [chainOkB] at hchain
    | nil =>
      have hp : Edit.tailPath path0 [] = path0 := rfl
      rw [hp] at hleaf
      show Edit.resolveSegs finder [m] path0 = some [f]
      simp only [resolveSegs, hleaf]
  | s :: ps, dirs, path0 => by
    intro hchain hleaf
    cases dirs with
    | nil => simp [chainOkB] at hchain
    | cons d ds =>
      rw [chainOkB, Bool.and_eq_true, beq_iff_eq] at hchain
      obtain ⟨h1, h2⟩ := hchain
      have hlast : Edit.tailPath path0 (d :: ds) = Edit.tailPath (some [d]) ds := by
        cases ds with
        | nil => rfl
        | cons d2 ds2 =>
          unfold tailPath
          rw [List.getLast?_cons_cons]
          cases h : (d2 :: ds2).getLast? with
          | none =>
            rw [List.getLast?_eq_none_iff] at h
            exact absurd h (by simp)
          | some x => rfl
      rw [hlast] at hleaf
      have ih := Edit.resolveSegs_chain finder m f ps ds (some [d]) h2 hleaf
      obtain ⟨a, t, hat⟩ : ∃ a t, ps ++ [m] = a :: t := by
        cases ps <;> exact ⟨_, _, rfl⟩
      rw [List.cons_append, hat]
      simp only [resolveSegs, h1]
      rw [← hat, ih]
      simp [List.map_cons, List.cons_append]

/-- C1: for every dotted module name whose segments split as a chain of
packages followed by a leaf module — each non-final segment resolving to a
package directory, the final one to a module file in the last package — the
resolver's result is exactly the initializer file of every traversed
package plus the leaf module's file, and as a set it equals the leaf file
added to the initializer set. -/
theorem Edit.resolve_import_chain (finder : Edit.Finder) (name : String)
    (ps dirs : List String) (m f : String) (path0 : Option (List String))
    (hname : Edit.splitDots name = ps ++ [m])
    (hchain : Edit.chainOkB finder path0 ps dirs = true)
    (hleaf : finder m (Edit.tailPath path0 dirs) =
      some (f, Edit.ModKind.source)) :
    Edit.resolve_import finder name path0 =
      some (dirs.map Edit.initFile ++ [f]) ∧
    (dirs.map Edit.initFile ++ [f]).toFinset =
      insert f (dirs.map Edit.initFile).toFinset := by
  constructor
  · rw [resolve_import, hname]
    exact Edit.resolveSegs_chain finder m f ps dirs path0 hchain hleaf
  · simp [List.toFinset_append, Finset.insert_eq, Finset.union_comm]

/-- C1 witness: `root.pkg.mod`, where `root` and `root/pkg` are packages
and `root/pkg/mod` is a module, resolves to exactly the two package
initializers plus the leaf module file, three distinct files. -/
theorem Edit.resolve_import_chain_witness :
    Edit.resolve_import Edit.finder3 "root.pkg.mod" none =
      some ["/root/__init__.py", "/root/pkg/__init__.py",
        "/root/pkg/mod.py"] ∧
    ["/root/__init__.py", "/root/pkg/__init__.py",
      "/root/pkg/mod.py"].Nodup := by
  have h := Edit.resolve_import_chain Edit.finder3 "root.pkg.mod"
    ["root", "pkg"] ["/root/", "/root/pkg/"] "mod" "/root/pkg/mod.py" none
    (by decide) (by decide) (by decide)
  constructor
  · rw [h.1]
    decide
  · decide

-- C4: linking creates exactly the edges for tracked imports

/-- Lookup at a non-matching head skips it. -/
theorem Edit.find_file_cons_neg (q : Edit.Path) (v : Edit.Vertex)
    (g : Edit.Graph) (p : Edit.Path) (h : ¬ q = p) :
    Edit.find_file ((q, v) :: g) p = Edit.find_file g p := by
  simp [find_file, List.find?, h]

/-- Lookup at a matching head returns its vertex. -/
theorem Edit.find_file_cons_pos (q : Edit.Path) (v : Edit.Vertex)
    (g : Edit.Graph) :
    Edit.find_file ((q, v) :: g) q = some v := by
  simp [find_file, List.find?]

/-- Updating one key of the vertex table changes the lookup only at that
key, where the update is applied to the stored vertex. -/
theorem Edit.find_file_updAt :
    ∀ (g : Edit.Graph) (k p : Edit.Path) (f : Edit.Vertex → Edit.Vertex),
      Edit.find_file (Edit.updAt g k f) p =
        if p = k then (Edit.find_file g p).map f else Edit.find_file g p
  | [], k, p, f => by
    simp [find_file, updAt]
  | (q, v) :: g, k, p, f => by
    have ih := Edit.find_file_updAt g k p f
    by_cases hqk : q = k
    · subst hqk
      have hupd : Edit.updAt ((q, v) :: g) q f = (q, f v) :: Edit.updAt g q f := by
        simp only [updAt, List.map_cons]
        simp
      rw [hupd]
      by_cases hqp : q = p
      · subst hqp
        rw [Edit.find_file_cons_pos, if_pos rfl, Edit.find_file_cons_pos]
        rfl
      · have hpq : ¬ p = q := fun h => hqp h.symm
        rw [Edit.find_file_cons_neg _ _ _ _ hqp,
          Edit.find_file_cons_neg _ _ _ _ hqp, ih]
    · have hupd : Edit.updAt ((q, v) :: g) k f = (q, v) :: Edit.updAt g k f := by
        simp only [updAt, List.map_cons]
        simp [hqk]
      rw [hupd]
      by_cases hqp : q = p
      · subst hqp
        have hpk : ¬ (q = k) := hqk
        rw [Edit.find_file_cons_pos, if_neg hpk, Edit.find_file_cons_pos]
      · rw [Edit.find_file_cons_neg _ _ _ _ hqp,
          Edit.find_file_cons_neg _ _ _ _ hqp, ih]

/-- Characterization of the edge-creation loop of `PyFile.visit`, with an
arbitrary accumulator: the vertex's path, imports and incoming set are
untouched; its outgoing set gains exactly one `IMPORT` edge per import
found in the graph; every found import's vertex gains the corresponding
edge in its incoming set; and vertices absent from the graph stay absent. -/
theorem Edit.visit_loop (sp : Edit.Path) :
    ∀ (l : List Edit.Path) (sv : Edit.Vertex) (g : Edit.Graph),
      ((l.foldl (Edit.visitStep sp) (sv, g)).1.path = sv.path ∧
       (l.foldl (Edit.visitStep sp) (sv, g)).1.imports = sv.imports ∧
       (l.foldl (Edit.visitStep sp) (sv, g)).1.incoming = sv.incoming) ∧
      (l.foldl (Edit.visitStep sp) (sv, g)).1.outgoing =
        sv.outgoing ∪
          ((l.filter (fun i => (Edit.find_file g i).isSome)).map
            (fun i => Edit.Edge.mk Edit.EdgeType.IMPORT sp i)).toFinset ∧
      (∀ k v, Edit.find_file g k = some v →
        Edit.find_file ((l.foldl (Edit.visitStep sp) (sv, g)).2) k =
          some (if k ∈ l
            then { v with incoming := insert (Edit.Edge.mk Edit.EdgeType.IMPORT sp k) v.incoming }
            else v)) ∧
      (∀ k, Edit.find_file g k = none →
        Edit.find_file ((l.foldl (Edit.visitStep sp) (sv, g)).2) k = none)
  | [], sv, g => by
    refine ⟨⟨rfl, rfl, rfl⟩, by simp, ?_, fun k hk => hk⟩
    intro k v hk
    simp [hk]
  | i :: l, sv, g => by
    rcases hfi : Edit.find_file g i with - | w
    · have hstep : Edit.visitStep sp (sv, g) i = (sv, g) := by
        simp [visitStep, hfi]
      rw [List.foldl_cons, hstep]
      have ih := Edit.visit_loop sp l sv g
      refine ⟨ih.1, ?_, ?_, ih.2.2.2⟩
      · rw [ih.2.1]
        simp [List.filter_cons, hfi]
      · intro k v hk
        have hki : ¬ (k = i) := by
          intro h
          subst h
          rw [hfi] at hk
          exact absurd hk (by simp)
        rw [ih.2.2.1 k v hk]
        simp [List.mem_cons, hki]
    · have hstep : Edit.visitStep sp (sv, g) i =
          ({ sv with outgoing := insert (Edit.Edge.mk Edit.EdgeType.IMPORT sp i) sv.outgoing },
           Edit.updAt g i (fun v => { v with incoming := insert (Edit.Edge.mk Edit.EdgeType.IMPORT sp i) v.incoming })) := by
        simp [visitStep, hfi]
      rw [List.foldl_cons, hstep]
      have ih := Edit.visit_loop sp l
        { sv with outgoing := insert (Edit.Edge.mk Edit.EdgeType.IMPORT sp i) sv.outgoing }
        (Edit.updAt g i (fun v => { v with incoming := insert (Edit.Edge.mk Edit.EdgeType.IMPORT sp i) v.incoming }))
      have hfind' : ∀ j, Edit.find_file
          (Edit.updAt g i (fun v => { v with incoming := insert (Edit.Edge.mk Edit.EdgeType.IMPORT sp i) v.incoming })) j =
          if j = i
          then (Edit.find_file g j).map (fun v => { v with incoming := insert (Edit.Edge.mk Edit.EdgeType.IMPORT sp i) v.incoming })
          else Edit.find_file g j :=
        fun j => Edit.find_file_updAt g i j _
      have hsome' : ∀ j, (Edit.find_file
          (Edit.updAt g i (fun v => { v with incoming := insert (Edit.Edge.mk Edit.EdgeType.IMPORT sp i) v.incoming })) j).isSome =
          (Edit.find_file g j).isSome := by
        intro j
        rw [hfind']
        by_cases hji : j = i
        · simp [hji]
        · simp [hji]
      refine ⟨ih.1, ?_, ?_, ?_⟩
      · rw [ih.2.1]
        have hfc : List.filter (fun j => (Edit.find_file
            (Edit.updAt g i (fun v => { v with incoming := insert (Edit.Edge.mk Edit.EdgeType.IMPORT sp i) v.incoming })) j).isSome) l =
            List.filter (fun j => (Edit.find_file g j).isSome) l := by
          apply List.filter_congr
          intro j _
          exact hsome' j
        rw [hfc]
        have hfi2 : (Edit.find_file g i).isSome = true := by rw [hfi]; rfl
        rw [List.filter_cons, hfi2]
        simp [Finset.insert_union, Finset.union_insert]
      · intro k v hk
        by_cases hki : k = i
        · subst hki
          have hv1 : Edit.find_file
              (Edit.updAt g k (fun v => { v with incoming := insert (Edit.Edge.mk Edit.EdgeType.IMPORT sp k) v.incoming })) k =
              some { v with incoming := insert (Edit.Edge.mk Edit.EdgeType.IMPORT sp k) v.incoming } := by
            rw [hfind' k]
            simp [hk]
          rw [ih.2.2.1 k _ hv1]
          by_cases hkl : k ∈ l
          · simp [hkl, List.mem_cons, Finset.insert_idem]
          · simp [hkl, List.mem_cons]
        · have hv1 : Edit.find_file
              (Edit.updAt g i (fun v => { v with incoming := insert (Edit.Edge.mk Edit.EdgeType.IMPORT sp i) v.incoming })) k =
              some v := by
            rw [hfind' k, if_neg hki, hk]
          rw [ih.2.2.1 k v hv1]
          simp [List.mem_cons, hki]
      · intro k hk
        have hnone : Edit.find_file
            (Edit.updAt g i (fun v => { v with incoming := insert (Edit.Edge.mk Edit.EdgeType.IMPORT sp i) v.incoming })) k = none := by
          rw [hfind' k]
          by_cases hki : k = i
          · subst hki
            simp [hk]
          · simp [hki, hk]
        exact ih.2.2.2 k hnone

/-- C4: linking a vertex against the graph creates, for each import found
in the lookup, exactly one `IMPORT` edge from this vertex to the found one:
the vertex's outgoing set becomes its old value plus exactly those edges,
each found destination's incoming set gains exactly its edge, imports
absent from the graph are skipped silently (they stay absent and produce no
edge), and vertices not imported are untouched. -/
theorem Edit.visit_spec (self : Edit.Vertex) (g : Edit.Graph) :
    (Edit.visit self g).1.incoming = self.incoming ∧
    (Edit.visit self g).1.outgoing =
      self.outgoing ∪
        ((self.imports.filter (fun i => (Edit.find_file g i).isSome)).map
          (fun i => Edit.Edge.mk Edit.EdgeType.IMPORT self.path i)).toFinset ∧
    (∀ i v, i ∈ self.imports → Edit.find_file g i = some v →
      Edit.find_file (Edit.visit self g).2 i =
        some { v with incoming := insert (Edit.Edge.mk Edit.EdgeType.IMPORT self.path i) v.incoming }) ∧
    (∀ i, Edit.find_file g i = none →
      Edit.find_file (Edit.visit self g).2 i = none) ∧
    (∀ k v, k ∉ self.imports → Edit.find_file g k = some v →
      Edit.find_file (Edit.visit self g).2 k = some v) := by
  have h := Edit.visit_loop self.path self.imports self g
  refine ⟨h.1.2.2, h.2.1, ?_, h.2.2.2, ?_⟩
  · intro i v hi hv
    rw [Edit.visit, h.2.2.1 i v hv, if_pos hi]
  · intro k v hk hv
    rw [Edit.visit, h.2.2.1 k v hv, if_neg hk]

/-- C4 witness: A imports B (tracked) and C (untracked); linking produces
exactly the single edge A→B in A's outgoing set, B's incoming set gains
exactly that edge, and C stays absent from the graph. -/
theorem Edit.visit_spec_witness :
    (Edit.visit Edit.vA Edit.gAB).1.outgoing =
      {Edit.Edge.mk Edit.EdgeType.IMPORT Edit.pA Edit.pB} ∧
    Edit.find_file (Edit.visit Edit.vA Edit.gAB).2 Edit.pB =
      some { Edit.vB with incoming := insert (Edit.Edge.mk Edit.EdgeType.IMPORT Edit.pA Edit.pB) Edit.vB.incoming } ∧
    Edit.find_file (Edit.visit Edit.vA Edit.gAB).2 Edit.pC = none := by
  have h := Edit.visit_spec Edit.vA Edit.gAB
  refine ⟨?_, ?_, ?_⟩
  · rw [h.2.1]
    decide
  · exact h.2.2.1 Edit.pB Edit.vB (by decide) rfl
  · exact h.2.2.2.1 Edit.pC rfl
